import Mathlib

/-!
Verification of the gauge incremental spec/concept index and concept
expansion engine against its source (`gauge/specification.go` and
`api/infoGatherer/specDetails.go` plus the `lang` scenario query helper).
Types whose defining files are absent from the sources under study
(Step, StepArg, ArgLookup, Scenario, Concept, StepValue,
ConceptDictionary, the parser boundary) are modelled from the
specification document and marked as such in their doc comments.
-/

namespace Gauge

/-- Token kinds, mirroring the constant block of `specification.go`. -/
inductive TokenKind where
  | specKind
  | tagKind
  | scenarioKind
  | commentKind
  | stepKind
  | tableHeader
  | tableRow
  | headingKind
  | tableKind
  | dataTableKind
  | tearDownKind
  deriving DecidableEq, Repr

/-- Heading types, mirroring `SpecHeading` / `ScenarioHeading`. -/
inductive HeadingType where
  | specHeading
  | scenarioHeading
  deriving DecidableEq, Repr

/-- `Heading` from `specification.go`. -/
structure Heading where
  value : String
  lineNo : Nat
  headingType : HeadingType
  deriving DecidableEq, Repr

/-- `Comment` from `specification.go`. -/
structure Comment where
  value : String
  lineNo : Nat
  deriving DecidableEq, Repr

/-- `TearDown` from `specification.go`. -/
structure TearDown where
  lineNo : Nat
  value : String
  deriving DecidableEq, Repr

/-- `Tags` from `specification.go`. -/
structure Tags where
  rawValues : List (List String)
  deriving DecidableEq, Repr

/-- Modelled from the spec: a call-site or declared step argument
(`StepArg`, whose defining file `step.go` is missing from the sources):
a value, an argument type, an optional inline table and a name. -/
structure StepArg where
  value : String
  argType : String
  table : List (List String)
  name : String
  deriving DecidableEq, Repr

/-- Modelled from the spec: the Argument Lookup (`argLookup.go` missing
from the sources) is "an ordered, name-keyed table binding parameter
names to argument values". We represent it as an ordered association
list from parameter name to bound argument. -/
abbrev ArgLookup : Type := List (String × StepArg)

/-- Modelled from the spec: adding a binding to the name-keyed table
(`ArgLookup.AddArgValue`, missing from the sources). The spec describes
no failure mode for installing a binding, so the Go `error` return is
always nil: the operation updates the entry for the name when present
and appends a new entry otherwise. -/
def ArgLookup.addArgValue (lookup : ArgLookup) (name : String) (arg : StepArg) : ArgLookup :=
  if (lookup.any (fun p => p.1 = name)) then
    lookup.map (fun p => if p.1 = name then (name, arg) else p)
  else
    lookup ++ [(name, arg)]

/-- Modelled from the spec: resolution in the name-keyed table ("look in
self"): the binding of the first entry carrying the name. -/
def ArgLookup.resolve (lookup : ArgLookup) (name : String) : Option StepArg :=
  (lookup.find? (fun p => p.1 = name)).map (fun p => p.2)

/-- Modelled from the spec: a `Step` ("an atomic or macro-invocation
unit", `step.go` missing from the sources): text value / normalized
signature, line number, ordered call-site arguments, the flag marking a
concept invocation, the nested step list, the per-invocation Argument
Lookup, and the non-owning Parent back-reference. Following the spec's
design note, the Parent back-reference is an opaque handle (the step's
`id`) into the owning arena rather than a raw reference. -/
inductive Step where
  | mk
    (id : Nat)
    (value : String)
    (lineNo : Nat)
    (args : List StepArg)
    (isConcept : Bool)
    (conceptSteps : List Step)
    (lookup : ArgLookup)
    (parent : Option Nat)
  deriving Repr

mutual

/-- Decidable structural equality on steps (the Lean counterpart of
`reflect.DeepEqual` on fully dereferenced step values). -/
def Step.decEq : (a b : Step) → Decidable (a = b)
  | .mk i v l ar c cs lk p, .mk i' v' l' ar' c' cs' lk' p' =>
    match Step.decEqList cs cs' with
    | Decidable.isFalse h6 => Decidable.isFalse (fun he => by injection he; exact h6 (by assumption))
    | Decidable.isTrue h6 =>
      if h1 : i = i' then
        if h2 : v = v' then
          if h3 : l = l' then
            if h4 : ar = ar' then
              if h5 : c = c' then
                if h7 : lk = lk' then
                  if h8 : p = p' then
                    Decidable.isTrue (by rw [h1, h2, h3, h4, h5, h6, h7, h8])
                  else Decidable.isFalse (fun he => by injection he; exact h8 (by assumption))
                else Decidable.isFalse (fun he => by injection he; exact h7 (by assumption))
              else Decidable.isFalse (fun he => by injection he; exact h5 (by assumption))
            else Decidable.isFalse (fun he => by injection he; exact h4 (by assumption))
          else Decidable.isFalse (fun he => by injection he; exact h3 (by assumption))
        else Decidable.isFalse (fun he => by injection he; exact h2 (by assumption))
      else Decidable.isFalse (fun he => by injection he; exact h1 (by assumption))

/-- Decidable structural equality on step lists. -/
def Step.decEqList : (as bs : List Step) → Decidable (as = bs)
  | [], [] => Decidable.isTrue rfl
  | [], _ :: _ => Decidable.isFalse (fun h => List.noConfusion h)
  | _ :: _, [] => Decidable.isFalse (fun h => List.noConfusion h)
  | a :: as, b :: bs =>
    match Step.decEq a b with
    | Decidable.isFalse h => Decidable.isFalse (fun he => by injection he; exact h (by assumption))
    | Decidable.isTrue h =>
      match Step.decEqList as bs with
      | Decidable.isFalse h2 => Decidable.isFalse (fun he => by injection he; exact h2 (by assumption))
      | Decidable.isTrue h2 => Decidable.isTrue (by rw [h, h2])

end

instance : DecidableEq Step := Step.decEq

def Step.id : Step → Nat
  | .mk i _ _ _ _ _ _ _ => i

def Step.value : Step → String
  | .mk _ v _ _ _ _ _ _ => v

def Step.lineNo : Step → Nat
  | .mk _ _ l _ _ _ _ _ => l

def Step.args : Step → List StepArg
  | .mk _ _ _ a _ _ _ _ => a

def Step.isConcept : Step → Bool
  | .mk _ _ _ _ c _ _ _ => c

def Step.conceptSteps : Step → List Step
  | .mk _ _ _ _ _ cs _ _ => cs

def Step.lookup : Step → ArgLookup
  | .mk _ _ _ _ _ _ lk _ => lk

def Step.parent : Step → Option Nat
  | .mk _ _ _ _ _ _ _ p => p

/-- Replace the argument list of a step (in Go, assignment to `step.Args`). -/
def Step.withArgs (a : List StepArg) : Step → Step
  | .mk i v l _ c cs lk p => .mk i v l a c cs lk p

/-- Replace the nested step list of a step. -/
def Step.withConceptSteps (cs : List Step) : Step → Step
  | .mk i v l a c _ lk p => .mk i v l a c cs lk p

/-- Replace the Argument Lookup of a step (in Go, writing through
`&originalStep.Lookup`). -/
def Step.withLookup (lk : ArgLookup) : Step → Step
  | .mk i v l a c cs _ p => .mk i v l a c cs lk p

/-- Replace the Parent back-reference of a step (in Go, assignment to
`conceptStep.Parent`). -/
def Step.withParent (p : Option Nat) : Step → Step
  | .mk i v l a c cs lk _ => .mk i v l a c cs lk p

/-- Modelled from the spec: `Step.GetCopy` (`step.go` missing from the
sources) deep-copies a step so "each invocation owns an independent
tree". On immutable Lean values the deep copy is the value itself; the
spec describes no failure mode, so the Go `error` return is always nil. -/
def Step.getCopy (s : Step) : Step := s

/-- Modelled from the spec: `Step.CopyFrom` (`step.go` missing from the
sources) overwrites the step's content — value, line number, argument
list, concept flag, nested step list and lookup — with the source's
("copying the body"); the step keeps its own identity (arena handle) and
its own Parent back-reference. -/
def Step.copyFrom (dst src : Step) : Step :=
  match dst, src with
  | .mk i _ _ _ _ _ _ p, .mk _ v l a c cs lk _ => .mk i v l a c cs lk p

/-- Modelled from the spec: a `Scenario` ("heading, ordered steps, …
owned exclusively by its Specification", `scenario.go` missing from the
sources), together with the source span used by the editor-integration
query. -/
structure Scenario where
  heading : Heading
  steps : List Step
  spanStart : Nat
  spanEnd : Nat
  deriving DecidableEq, Repr

/-- Modelled from the spec: `Scenario.InSpan` (`scenario.go` missing
from the sources): whether the scenario's source span contains the given
(1-based) line number. -/
def Scenario.inSpan (scn : Scenario) (line : Nat) : Bool :=
  scn.spanStart ≤ line && line ≤ scn.spanEnd

/-- Modelled from the spec: a parsed table (`table.go` missing from the
sources), reduced to its header row and body rows. -/
structure Table where
  headers : List String
  rows : List (List String)
  deriving DecidableEq, Repr

/-- `DataTable` wraps a `Table` (the wrapping struct is missing from the
sources; modelled from the spec). -/
structure DataTable where
  table : Table
  deriving DecidableEq, Repr

/-- The closed variant of specification items. In Go, `Item` is an
interface discriminated by `Kind()`; the spec's design note asks for "a
closed tagged-variant type … processed via exhaustive matching". -/
inductive Item where
  | scenarioItem (s : Scenario)
  | stepItem (s : Step)
  | commentItem (c : Comment)
  | tagsItem (t : Tags)
  | tearDownItem (t : TearDown)
  | dataTableItem (d : DataTable)
  deriving DecidableEq, Repr

/-- The `Kind()` dispatch of `specification.go` and the kind methods of
the sibling files: each item variant reports its token kind. -/
def Item.kind : Item → TokenKind
  | .scenarioItem _ => .scenarioKind
  | .stepItem _ => .stepKind
  | .commentItem _ => .commentKind
  | .tagsItem _ => .tagKind
  | .tearDownItem _ => .tearDownKind
  | .dataTableItem _ => .dataTableKind

/-- `Specification` from `specification.go`: heading, scenarios,
comments, data table, context steps, file name, tags, ordered items and
teardown steps. -/
structure Specification where
  heading : Option Heading
  scenarios : List Scenario
  comments : List Comment
  dataTable : DataTable
  contexts : List Step
  fileName : String
  tags : Option Tags
  items : List Item
  tearDownSteps : List Step
  deriving DecidableEq, Repr

/-- Outcome of a fallible Go operation: a normal return carrying a
value (nil error), a returned non-nil error, or a runtime panic (such
as an index out of range). -/
inductive GoResult (α : Type) where
  | ok (a : α)
  | err (msg : String)
  | panicked
  deriving DecidableEq, Repr

/-- Modelled from the spec: a `Concept` ("a root Step marked as a
concept … identified by file path plus the normalized signature of its
root step", `concept.go` missing from the sources). -/
structure Concept where
  conceptStep : Step
  fileName : String
  deriving DecidableEq, Repr

/-- Modelled from the spec: the `ConceptDictionary` is "a global mapping
from a normalized step signature to its concept definition", represented
as an association list from signature to concept. -/
abbrev ConceptDictionary : Type := List (String × Concept)

/-- Modelled from the spec: `ConceptDictionary.Search` (missing from the
sources) consults the mapping with a step's normalized signature and
yields its concept definition, or nothing. -/
def ConceptDictionary.search (dict : ConceptDictionary) (stepValue : String) : Option Concept :=
  (dict.find? (fun p => p.1 = stepValue)).map (fun p => p.2)

/-- The loop body of `PopulateConceptLookup` (`specification.go`): for
each call-site argument, by position, copy it and bind it to the
correspondingly positioned declared parameter name. Indexing
`conceptArgs[i]` beyond the end of the declared-parameter list is a Go
runtime panic. `i` is the running loop index of `range stepArgs`. -/
def populateConceptLookupLoop (lookup : ArgLookup) (conceptArgs : List StepArg)
    (i : Nat) (rest : List StepArg) : GoResult ArgLookup :=
  match rest with
  | [] => .ok lookup
  | arg :: rest' =>
    match conceptArgs[i]? with
    | none => .panicked
    | some conceptArg =>
      let stepArg : StepArg :=
        { value := arg.value, argType := arg.argType, table := arg.table, name := arg.name }
      populateConceptLookupLoop (lookup.addArgValue conceptArg.value stepArg) conceptArgs (i + 1) rest'

/-- `Specification.PopulateConceptLookup` from `specification.go`:
`for i, arg := range stepArgs { … lookup.AddArgValue(conceptArgs[i].Value, &stepArg) … }`. -/
def Specification.populateConceptLookup (_spec : Specification) (lookup : ArgLookup)
    (conceptArgs stepArgs : List StepArg) : GoResult ArgLookup :=
  populateConceptLookupLoop lookup conceptArgs 0 stepArgs

/-- `Specification.createConceptStep` from `specification.go`: copy the
concept body over the invocation step, restore the original call-site
arguments, point every nested step's Parent back-reference at the
invocation step, then populate the invocation's Argument Lookup. The
returned step is the final state of the mutated `originalStep`. -/
def Specification.createConceptStep (spec : Specification)
    (concept originalStep : Step) : GoResult Step :=
  let stepCopy := concept.getCopy
  let originalArgs := originalStep.args
  let s := (originalStep.copyFrom stepCopy).withArgs originalArgs
  let s := s.withConceptSteps (s.conceptSteps.map (fun conceptStep => conceptStep.withParent (some s.id)))
  match spec.populateConceptLookup s.lookup concept.args s.args with
  | .ok lk => .ok (s.withLookup lk)
  | .err e => .err e
  | .panicked => .panicked

/-- `Specification.processConceptStep` from `specification.go`: when the
dictionary has an entry for the step's signature, expand it; otherwise
leave the step untouched and return no error. -/
def Specification.processConceptStep (spec : Specification)
    (step : Step) (conceptDictionary : ConceptDictionary) : GoResult Step :=
  match conceptDictionary.search step.value with
  | some conceptFromDictionary => spec.createConceptStep conceptFromDictionary.conceptStep step
  | none => .ok step

/-- `Specification.AddItem` from `specification.go`: append the item
(the nil-slice initialization is the identity on Lean lists). -/
def Specification.addItem (spec : Specification) (itemToAdd : Item) : Specification :=
  { spec with items := spec.items ++ [itemToAdd] }

/-- `Specification.AddScenario` from `specification.go`: append to
`Scenarios`, then add the scenario as an item. -/
def Specification.addScenario (spec : Specification) (scenario : Scenario) : Specification :=
  ({ spec with scenarios := spec.scenarios ++ [scenario] } : Specification).addItem (.scenarioItem scenario)

/-- `Specification.AddContext` from `specification.go`. -/
def Specification.addContext (spec : Specification) (contextStep : Step) : Specification :=
  ({ spec with contexts := spec.contexts ++ [contextStep] } : Specification).addItem (.stepItem contextStep)

/-- `Specification.AddComment` from `specification.go`. -/
def Specification.addComment (spec : Specification) (comment : Comment) : Specification :=
  ({ spec with comments := spec.comments ++ [comment] } : Specification).addItem (.commentItem comment)

/-- `getIndexFor` from `specification.go`: the index of the first
cached scenario that is `reflect.DeepEqual` to the argument (structural
equality of the dereferenced values), or `-1` when none is. -/
def getIndexForFrom (scenario : Scenario) (scenarios : List Scenario) (start : Nat) : Int :=
  match scenarios with
  | [] => -1
  | anItem :: restItems =>
    if scenario = anItem then (start : Int)
    else getIndexForFrom scenario restItems (start + 1)

/-- `getIndexFor` entered at index 0, as in the source. -/
def getIndexFor (scenario : Scenario) (scenarios : List Scenario) : Int :=
  getIndexForFrom scenario scenarios 0

/-- `Specification.removeScenario` from `specification.go`: locate the
scenario by deep equality and drop it from `Scenarios` via the
three-way slice split. When `getIndexFor` yields `-1`, the slice
expression `Scenarios[:-1]` is a Go runtime panic (modelled as
`GoResult.panicked`). -/
def Specification.removeScenario (spec : Specification) (scenario : Scenario) :
    GoResult Specification :=
  let index := getIndexFor scenario spec.scenarios
  if (spec.scenarios.length : Int) - 1 = index then
    if index < 0 then .panicked
    else .ok { spec with scenarios := spec.scenarios.take index.toNat }
  else if index = 0 then
    .ok { spec with scenarios := spec.scenarios.drop 1 }
  else if index < 0 then .panicked
  else
    .ok { spec with scenarios :=
      spec.scenarios.take index.toNat ++ spec.scenarios.drop (index.toNat + 1) }

/-- `Specification.removeItem` from `specification.go`: read the item at
the index (a Go runtime panic when out of range), drop it from `Items`
via the three-way slice split, and, when it is a scenario item, also
drop the scenario from `Scenarios`. -/
def Specification.removeItem (spec : Specification) (itemIndex : Nat) :
    GoResult Specification :=
  match spec.items[itemIndex]? with
  | none => .panicked
  | some item =>
    let newItems :=
      if spec.items.length - 1 = itemIndex then spec.items.take itemIndex
      else if itemIndex = 0 then spec.items.drop 1
      else spec.items.take itemIndex ++ spec.items.drop (itemIndex + 1)
    let spec' := { spec with items := newItems }
    match item with
    | .scenarioItem scenario => spec'.removeScenario scenario
    | _ => .ok spec'

/-- Modelled from the spec: a `StepValue` ("a derived, deduplicated
signature extracted from a Step …; the unit of identity in the step
catalogue", its defining file missing from the sources): the normalized
signature, the argument names and the parameterized text. -/
structure StepValue where
  stepValue : String
  args : List String
  parameterizedStepValue : String
  deriving DecidableEq, Repr

/-- Modelled from the spec: `parser.CreateStepValue` (parser package
missing from the sources) derives the deduplicated signature of a step:
its placeholder-normalized text together with the call-site argument
values. -/
def createStepValue (step : Step) : StepValue :=
  { stepValue := step.value
    args := step.args.map (fun a => a.value)
    parameterizedStepValue := step.value }

end Gauge

namespace InfoGatherer

open Gauge

/-- The three caches of `SpecInfoGatherer` (`specDetails.go`). Go maps
are modelled as association lists with unique keys; map insertion
updates the entry in place or appends a new one, map deletion removes
every entry carrying the key. The `sync` fields (wait group, mutex) have
no sequential content and are omitted. -/
structure SpecInfoGatherer where
  specsCache : List (String × List Specification)
  conceptsCache : List (String × List Concept)
  stepsCache : List (String × StepValue)
  deriving DecidableEq, Repr

/-- Go map read `m[k]`: the value stored for the key, if any. -/
def lookupKey {α : Type} (m : List (String × α)) (k : String) : Option α :=
  (m.find? (fun p => p.1 = k)).map (fun p => p.2)

/-- Go map write `m[k] = v`: replace the entry in place, or append. -/
def storeKey {α : Type} (m : List (String × α)) (k : String) (v : α) : List (String × α) :=
  if m.any (fun p => p.1 = k) then
    m.map (fun p => if p.1 = k then (k, v) else p)
  else
    m ++ [(k, v)]

/-- Go map `delete(m, k)`. -/
def deleteKey {α : Type} (m : List (String × α)) (k : String) : List (String × α) :=
  m.filter (fun p => ¬ p.1 = k)

/-- `addToSpecsCache` from `specDetails.go`: under the mutex, create the
file's empty spec list when missing, then **append** the parsed
specification to it. -/
def addToSpecsCache (s : SpecInfoGatherer) (key : String) (value : Specification) :
    SpecInfoGatherer :=
  let existing := (lookupKey s.specsCache key).getD []
  { s with specsCache := storeKey s.specsCache key (existing ++ [value]) }

/-- `addToConceptsCache` from `specDetails.go`: same append discipline
for the concepts cache. -/
def addToConceptsCache (s : SpecInfoGatherer) (key : String) (value : Concept) :
    SpecInfoGatherer :=
  let existing := (lookupKey s.conceptsCache key).getD []
  { s with conceptsCache := storeKey s.conceptsCache key (existing ++ [value]) }

/-- The loop of `addToStepsCache` from `specDetails.go`: for each
derived step value, insert it keyed by its signature only when the
signature is not yet present (first-writer-wins). -/
def stepsCacheInsert (cache : List (String × StepValue)) (allSteps : List StepValue) :
    List (String × StepValue) :=
  allSteps.foldl
    (fun cache step =>
      if cache.any (fun p => p.1 = step.stepValue) then cache
      else cache ++ [(step.stepValue, step)])
    cache

/-- `addToStepsCache` as a state transformer on the gatherer. -/
def addToStepsCache (s : SpecInfoGatherer) (allSteps : List StepValue) : SpecInfoGatherer :=
  { s with stepsCache := stepsCacheInsert s.stepsCache allSteps }

/-- The steps-cache states reachable through `addToStepsCache`: the
empty cache laid down by `initStepsCache`, closed under insertion of any
batch of derived step values. -/
inductive StepsCacheReachable : List (String × StepValue) → Prop where
  | init : StepsCacheReachable []
  | insert (cache : List (String × StepValue)) (allSteps : List StepValue) :
      StepsCacheReachable cache → StepsCacheReachable (stepsCacheInsert cache allSteps)

/-- `getParsedStepValues` from `specDetails.go`: derive a StepValue from
every non-concept step. -/
def getParsedStepValues (steps : List Step) : List StepValue :=
  (steps.filter (fun step => ¬ step.isConcept)).map createStepValue

/-- `getStepsFromSpec` from `specDetails.go`: step values of the
contexts followed by those of every scenario's steps. -/
def getStepsFromSpec (spec : Specification) : List StepValue :=
  spec.scenarios.foldl
    (fun stepValues scenario => stepValues ++ getParsedStepValues scenario.steps)
    (getParsedStepValues spec.contexts)

/-- `getStepsFromConcept` from `specDetails.go`: step values of the
concept root step's body. -/
def getStepsFromConcept (concept : Concept) : List StepValue :=
  getParsedStepValues concept.conceptStep.conceptSteps

/-- `onSpecFileModify` from `specDetails.go`, parameterized by the
outcome of the external parser (`getParsedSpecs([file])`): when at least
one specification was parsed, append the first to the file's specs-cache
entry and upsert its derived step values; otherwise do nothing. -/
def onSpecFileModify (s : SpecInfoGatherer) (file : String)
    (parsedSpecs : List Specification) : SpecInfoGatherer :=
  match parsedSpecs with
  | [] => s
  | parsedSpec :: _ =>
    let s := addToSpecsCache s file parsedSpec
    addToStepsCache s (getStepsFromSpec parsedSpec)

/-- The `ParseResult` boundary of the concept parser: an optional
error (`parseResults.Error`). -/
structure ParseResult where
  error : Option String
  deriving DecidableEq, Repr

/-- The insertion loop of `onConceptFileModify` from `specDetails.go`:
wrap each parsed root step into a `Concept`, append it to the concepts
cache and upsert its derived step values. -/
def onConceptFileModifyLoop (s : SpecInfoGatherer) (file : String) (concepts : List Step) :
    SpecInfoGatherer :=
  concepts.foldl
    (fun s concept =>
      let c : Concept := { conceptStep := concept, fileName := file }
      let s := addToConceptsCache s file c
      addToStepsCache s (getStepsFromConcept c))
    s

/-- `onConceptFileModify` from `specDetails.go`, parameterized by the
outcome of the external concept parser (see the loop above): when the
parse result carries an error, return before touching any cache. -/
def onConceptFileModify (s : SpecInfoGatherer) (file : String)
    (concepts : List Step) (parseResults : Option ParseResult) : SpecInfoGatherer :=
  match parseResults with
  | some pr =>
    match pr.error with
    | some _ => s
    | none => onConceptFileModifyLoop s file concepts
  | none => onConceptFileModifyLoop s file concepts

/-- `onSpecFileRemove` from `specDetails.go`: under the mutex, delete
the file's entry from the specs cache. -/
def onSpecFileRemove (s : SpecInfoGatherer) (file : String) : SpecInfoGatherer :=
  { s with specsCache := deleteKey s.specsCache file }

/-- `onConceptFileRemove` from `specDetails.go`. -/
def onConceptFileRemove (s : SpecInfoGatherer) (file : String) : SpecInfoGatherer :=
  { s with conceptsCache := deleteKey s.conceptsCache file }

/-- `GetAvailableSpecs` from `specDetails.go`: concatenate every
file's cached specification list. -/
def getAvailableSpecs (s : SpecInfoGatherer) : List Specification :=
  s.specsCache.foldl (fun allSpecs p => allSpecs ++ p.2) []

/-- `GetAvailableSteps` from `specDetails.go`: collect every cached
step value. -/
def getAvailableSteps (s : SpecInfoGatherer) : List StepValue :=
  s.stepsCache.foldl (fun steps p => steps ++ [p.2]) []

end InfoGatherer

namespace Lang

open Gauge

/-- `ScenarioInfo` from the language-server scenario query. -/
structure ScenarioInfo where
  heading : String
  lineNo : Nat
  executionIdentifier : String
  deriving DecidableEq, Repr

/-- `getScenarioInfo` from the language-server scenario query: heading
text, heading line, and `file:line` execution identifier. -/
def getScenarioInfo (sce : Scenario) (file : String) : ScenarioInfo :=
  { heading := sce.heading.value
    lineNo := sce.heading.lineNo
    executionIdentifier := file ++ ":" ++ toString sce.heading.lineNo }

/-- The accumulation loop of `getScenarioAt` (`ifs` is the summary list
built so far). -/
def getScenarioAtLoop (file : String) (line : Nat) :
    List Scenario → List ScenarioInfo → ScenarioInfo ⊕ List ScenarioInfo
  | [], ifs => .inr ifs
  | sce :: rest, ifs =>
    let info := getScenarioInfo sce file
    if sce.inSpan (line + 1) then .inl info
    else getScenarioAtLoop file line rest (ifs ++ [info])

/-- `getScenarioAt` from the language-server scenario query: walk the
scenarios in order; the first whose span contains `line + 1` is returned
alone, otherwise the accumulated summaries of every scenario are
returned. The Go `interface{}` result is the sum of the two shapes. -/
def getScenarioAt (scenarios : List Scenario) (file : String) (line : Nat) :
    ScenarioInfo ⊕ List ScenarioInfo :=
  getScenarioAtLoop file line scenarios []

end Lang

namespace Demo

open Gauge InfoGatherer Lang

/-- A concrete call-site argument. -/
def argX : StepArg := { value := "x", argType := "static", table := [], name := "" }

/-- A second concrete call-site argument. -/
def argY : StepArg := { value := "y", argType := "static", table := [], name := "" }

/-- A concrete declared concept parameter. -/
def paramP : StepArg := { value := "p", argType := "dynamic", table := [], name := "p" }

/-- A nested body step that is itself a concept invocation. -/
def bodyChild : Step := .mk 10 "nested {}" 3 [paramP] true [] [] none

/-- A nested body step that is atomic. -/
def bodyAtomic : Step := .mk 11 "atomic body" 4 [] false [] [] none

/-- A concept root step with one declared parameter and a two-step body. -/
def conceptRoot : Step := .mk 1 "use {}" 1 [paramP] true [bodyChild, bodyAtomic] [] none

/-- A concept root step with one declared parameter and an empty body. -/
def concept1Root : Step := .mk 2 "lone {}" 1 [paramP] true [] [] none

/-- A concept root step with no declared parameters. -/
def concept0Root : Step := .mk 3 "zero" 1 [] true [] [] none

/-- An invocation step of `conceptRoot` carrying one call-site argument. -/
def invocation : Step := .mk 5 "use {}" 7 [argX] false [] [] none

/-- An invocation step carrying no call-site arguments. -/
def invocation0 : Step := .mk 6 "lone {}" 8 [] false [] [] none

/-- An invocation step carrying one call-site argument for a
zero-parameter concept. -/
def invocation1 : Step := .mk 7 "zero" 9 [argX] false [] [] none

/-- An atomic step matching nothing in any dictionary. -/
def atomicStep : Step := .mk 8 "just a step" 11 [] false [] [] none

/-- A dictionary defining `conceptRoot`. -/
def demoDict : ConceptDictionary :=
  [("use {}", { conceptStep := conceptRoot, fileName := "c.cpt" })]

/-- The empty dictionary. -/
def emptyDict : ConceptDictionary := []

/-- An otherwise-empty specification document. -/
def emptySpec : Specification :=
  { heading := none
    scenarios := []
    comments := []
    dataTable := { table := { headers := [], rows := [] } }
    contexts := []
    fileName := "demo.spec"
    tags := none
    items := []
    tearDownSteps := [] }

/-- The expansion of `invocation` by `conceptRoot`, written out. -/
def expandedInvocation : Step :=
  .mk 5 "use {}" 1 [argX]
    true [bodyChild.withParent (some 5), bodyAtomic.withParent (some 5)]
    [("p", argX)] none

/-- The (silent) expansion of the zero-argument `invocation0` by the
one-parameter `concept1Root`, written out. -/
def expandedSilent : Step := .mk 6 "lone {}" 1 [] true [] [] none

/-- A concrete scenario `A`. -/
def scenA : Scenario :=
  { heading := { value := "A", lineNo := 2, headingType := .scenarioHeading }
    steps := [atomicStep]
    spanStart := 2
    spanEnd := 4 }

/-- A concrete scenario `B`. -/
def scenB : Scenario :=
  { heading := { value := "B", lineNo := 6, headingType := .scenarioHeading }
    steps := []
    spanStart := 6
    spanEnd := 9 }

/-- A specification holding two deep-equal copies of scenario `A`
around scenario `B`. -/
def dupSpec : Specification :=
  { emptySpec with
    scenarios := [scenA, scenB, scenA]
    items := [.scenarioItem scenA, .scenarioItem scenB, .scenarioItem scenA] }

/-- The state of `dupSpec` after `removeItem 2`. -/
def dupSpecAfter : Specification :=
  { emptySpec with
    scenarios := [scenB, scenA]
    items := [.scenarioItem scenA, .scenarioItem scenB] }

/-- A specification with one scenario and one context, from `a.spec`. -/
def specA : Specification :=
  { emptySpec with
    fileName := "a.spec"
    scenarios := [scenA]
    contexts := [atomicStep]
    items := [.stepItem atomicStep, .scenarioItem scenA] }

/-- A gatherer state caching `specA` and its derived step values. -/
def gatherer0 : SpecInfoGatherer :=
  { specsCache := [("a.spec", [specA])]
    conceptsCache := []
    stepsCache := stepsCacheInsert [] (getStepsFromSpec specA) }

end Demo

namespace Gauge

/-- The subsequence of items of scenario kind, as scenario values. -/
def scenarioItems (items : List Item) : List Scenario :=
  items.filterMap (fun item =>
    match item with
    | .scenarioItem s => some s
    | _ => none)

/-- The structural invariant of §3 of the spec: `Scenarios` is exactly
the subsequence of `Items` of scenario kind. -/
def Specification.scenariosConsistent (spec : Specification) : Prop :=
  spec.scenarios = scenarioItems spec.items

instance (spec : Specification) : Decidable spec.scenariosConsistent := by
  unfold Specification.scenariosConsistent
  infer_instance

/-- Binding a list of (declared parameter, call-site argument) pairs
into a lookup, in order: the net effect of the `PopulateConceptLookup`
loop when no index is out of range. -/
def bindPairs (lookup : ArgLookup) (pairs : List (StepArg × StepArg)) : ArgLookup :=
  pairs.foldl (fun lk q => lk.addArgValue q.1.value q.2) lookup

end Gauge

namespace InfoGatherer

open Gauge

/-- Well-formedness of a steps cache: signatures (the keys) are
pairwise distinct, and every entry is stored under its own signature. -/
def StepsCacheWF (cache : List (String × StepValue)) : Prop :=
  (cache.map Prod.fst).Nodup ∧ ∀ p ∈ cache, p.2.stepValue = p.1

end InfoGatherer

namespace Gauge

@[simp] theorem Step.id_withArgs (s : Step) (a : List StepArg) : (s.withArgs a).id = s.id := by
  cases s; rfl

@[simp] theorem Step.args_withArgs (s : Step) (a : List StepArg) : (s.withArgs a).args = a := by
  cases s; rfl

@[simp] theorem Step.lookup_withArgs (s : Step) (a : List StepArg) :
    (s.withArgs a).lookup = s.lookup := by
  cases s; rfl

@[simp] theorem Step.conceptSteps_withArgs (s : Step) (a : List StepArg) :
    (s.withArgs a).conceptSteps = s.conceptSteps := by
  cases s; rfl

@[simp] theorem Step.id_withConceptSteps (s : Step) (cs : List Step) :
    (s.withConceptSteps cs).id = s.id := by
  cases s; rfl

@[simp] theorem Step.args_withConceptSteps (s : Step) (cs : List Step) :
    (s.withConceptSteps cs).args = s.args := by
  cases s; rfl

@[simp] theorem Step.lookup_withConceptSteps (s : Step) (cs : List Step) :
    (s.withConceptSteps cs).lookup = s.lookup := by
  cases s; rfl

@[simp] theorem Step.conceptSteps_withConceptSteps (s : Step) (cs : List Step) :
    (s.withConceptSteps cs).conceptSteps = cs := by
  cases s; rfl

@[simp] theorem Step.id_withLookup (s : Step) (lk : ArgLookup) : (s.withLookup lk).id = s.id := by
  cases s; rfl

@[simp] theorem Step.args_withLookup (s : Step) (lk : ArgLookup) :
    (s.withLookup lk).args = s.args := by
  cases s; rfl

@[simp] theorem Step.lookup_withLookup (s : Step) (lk : ArgLookup) :
    (s.withLookup lk).lookup = lk := by
  cases s; rfl

@[simp] theorem Step.conceptSteps_withLookup (s : Step) (lk : ArgLookup) :
    (s.withLookup lk).conceptSteps = s.conceptSteps := by
  cases s; rfl

@[simp] theorem Step.parent_withParent (s : Step) (p : Option Nat) :
    (s.withParent p).parent = p := by
  cases s; rfl

@[simp] theorem Step.id_copyFrom (dst src : Step) : (dst.copyFrom src).id = dst.id := by
  cases dst; cases src; rfl

@[simp] theorem Step.args_copyFrom (dst src : Step) : (dst.copyFrom src).args = src.args := by
  cases dst; cases src; rfl

@[simp] theorem Step.lookup_copyFrom (dst src : Step) :
    (dst.copyFrom src).lookup = src.lookup := by
  cases dst; cases src; rfl

@[simp] theorem Step.conceptSteps_copyFrom (dst src : Step) :
    (dst.copyFrom src).conceptSteps = src.conceptSteps := by
  cases dst; cases src; rfl

theorem ArgLookup.resolve_cons (x : String × StepArg) (l : ArgLookup) (other : String) :
    ArgLookup.resolve (x :: l) other
      = if x.1 = other then some x.2 else ArgLookup.resolve l other := by
  by_cases hx : x.1 = other <;> simp [ArgLookup.resolve, List.find?_cons, hx]

theorem ArgLookup.resolve_replace_self (t : ArgLookup) (name : String) (arg : StepArg)
    (hany : t.any (fun q => q.1 = name)) :
    ArgLookup.resolve (t.map (fun p => if p.1 = name then (name, arg) else p)) name
      = some arg := by
  induction t with
  | nil => simp at hany
  | cons p t ih =>
    rw [List.map_cons, ArgLookup.resolve_cons]
    by_cases hp : p.1 = name
    · rw [if_pos hp]
      simp
    · rw [if_neg hp, if_neg hp]
      have hany' : t.any (fun q => decide (q.1 = name)) = true := by
        simpa [List.any_cons, hp] using hany
      exact ih hany'

theorem ArgLookup.resolve_replace_ne (t : ArgLookup) (name other : String) (arg : StepArg)
    (h : other ≠ name) :
    ArgLookup.resolve (t.map (fun p => if p.1 = name then (name, arg) else p)) other
      = t.resolve other := by
  induction t with
  | nil => rfl
  | cons p t ih =>
    rw [List.map_cons, ArgLookup.resolve_cons, ArgLookup.resolve_cons]
    by_cases hp : p.1 = name
    · rw [if_pos hp]
      have h1 : ¬ ((name, arg) : String × StepArg).1 = other := fun e => h (by simpa using e.symm)
      have h2 : ¬ p.1 = other := by
        rw [hp]
        exact fun e => h e.symm
      rw [if_neg h1, if_neg h2]
      exact ih
    · rw [if_neg hp]
      by_cases hpo : p.1 = other
      · rw [if_pos hpo, if_pos hpo]
      · rw [if_neg hpo, if_neg hpo]
        exact ih

theorem ArgLookup.resolve_append_single_self (t : ArgLookup) (name : String) (arg : StepArg)
    (hany : ¬ t.any (fun q => q.1 = name)) :
    ArgLookup.resolve (t ++ [(name, arg)]) name = some arg := by
  induction t with
  | nil => simp [ArgLookup.resolve]
  | cons p t ih =>
    have hp : ¬ p.1 = name := by
      intro e
      exact hany (by simp [List.any_cons, e])
    have hany' : ¬ t.any (fun q => decide (q.1 = name)) = true := by
      intro e
      exact hany (by simp [List.any_cons, e])
    rw [List.cons_append, ArgLookup.resolve_cons, if_neg hp]
    exact ih hany'

theorem ArgLookup.resolve_append_single_ne (t : ArgLookup) (name other : String) (arg : StepArg)
    (h : other ≠ name) :
    ArgLookup.resolve (t ++ [(name, arg)]) other = t.resolve other := by
  induction t with
  | nil =>
    have h1 : ¬ ((name, arg) : String × StepArg).1 = other := fun e => h (by simpa using e.symm)
    simp [ArgLookup.resolve, List.find?_cons, h1]
  | cons p t ih =>
    rw [List.cons_append, ArgLookup.resolve_cons, ArgLookup.resolve_cons]
    by_cases hpo : p.1 = other
    · rw [if_pos hpo, if_pos hpo]
    · rw [if_neg hpo, if_neg hpo]
      exact ih

theorem ArgLookup.addArgValue_resolve_self (lookup : ArgLookup) (name : String) (arg : StepArg) :
    (lookup.addArgValue name arg).resolve name = some arg := by
  unfold ArgLookup.addArgValue
  by_cases hany : lookup.any (fun q => decide (q.1 = name)) = true
  · simpa [hany] using ArgLookup.resolve_replace_self lookup name arg hany
  · simpa [hany] using ArgLookup.resolve_append_single_self lookup name arg (by simpa using hany)

theorem ArgLookup.addArgValue_resolve_ne (lookup : ArgLookup) (name other : String)
    (arg : StepArg) (h : other ≠ name) :
    (lookup.addArgValue name arg).resolve other = lookup.resolve other := by
  unfold ArgLookup.addArgValue
  by_cases hany : lookup.any (fun q => decide (q.1 = name)) = true
  · simpa [hany] using ArgLookup.resolve_replace_ne lookup name other arg h
  · simpa [hany] using ArgLookup.resolve_append_single_ne lookup name other arg h

@[simp] theorem StepArg.eta_fields (a : StepArg) :
    ({ value := a.value, argType := a.argType, table := a.table, name := a.name } : StepArg)
      = a := rfl

@[simp] theorem bindPairs_nil (lookup : ArgLookup) : bindPairs lookup [] = lookup := rfl

@[simp] theorem bindPairs_cons (lookup : ArgLookup) (q : StepArg × StepArg)
    (rest : List (StepArg × StepArg)) :
    bindPairs lookup (q :: rest) = bindPairs (lookup.addArgValue q.1.value q.2) rest := rfl

theorem bindPairs_resolve_of_not_mem (pairs : List (StepArg × StepArg)) :
    ∀ (lookup : ArgLookup) (name : String),
      (∀ q ∈ pairs, q.1.value ≠ name) →
      (bindPairs lookup pairs).resolve name = lookup.resolve name := by
  induction pairs with
  | nil => intro lookup name _; rfl
  | cons q rest ih =>
    intro lookup name h
    rw [bindPairs_cons, ih _ name (fun r hr => h r (List.mem_cons_of_mem q hr))]
    exact ArgLookup.addArgValue_resolve_ne lookup q.1.value name q.2
      (fun e => h q (List.mem_cons_self q rest) e.symm)

theorem bindPairs_resolve_mem (pairs : List (StepArg × StepArg)) :
    ∀ (lookup : ArgLookup) (ca sa : StepArg),
      (ca, sa) ∈ pairs →
      (pairs.map (fun q => q.1.value)).Nodup →
      (bindPairs lookup pairs).resolve ca.value = some sa := by
  induction pairs with
  | nil => intro _ _ _ h _; cases h
  | cons q rest ih =>
    intro lookup ca sa hmem hnodup
    rw [bindPairs_cons]
    rcases List.mem_cons.mp hmem with heq | hmem'
    · have hq1 : q.1 = ca := by rw [← heq]
      have hq2 : q.2 = sa := by rw [← heq]
      have hnotin : ca.value ∉ rest.map (fun r => r.1.value) := by
        have h0 : q.1.value ∉ rest.map (fun r => r.1.value) := (List.nodup_cons.mp hnodup).1
        rwa [hq1] at h0
      have hval : ∀ r ∈ rest, r.1.value ≠ ca.value := by
        intro r hr e
        exact hnotin (e ▸ List.mem_map_of_mem (fun r => r.1.value) hr)
      rw [bindPairs_resolve_of_not_mem rest _ ca.value hval, hq1, hq2]
      exact ArgLookup.addArgValue_resolve_self lookup ca.value sa
    · exact ih _ ca sa hmem' (List.nodup_cons.mp hnodup).2

theorem populateConceptLookupLoop_eq_bindPairs (conceptArgs : List StepArg)
    (rest : List StepArg) :
    ∀ (i : Nat) (lookup : ArgLookup),
      i + rest.length ≤ conceptArgs.length →
      populateConceptLookupLoop lookup conceptArgs i rest
        = .ok (bindPairs lookup ((conceptArgs.drop i).zip rest)) := by
  induction rest with
  | nil =>
    intro i lookup _
    simp [populateConceptLookupLoop]
  | cons arg rest' ih =>
    intro i lookup h
    have hi : i < conceptArgs.length := by
      simp only [List.length_cons] at h
      omega
    have hnext : (i + 1) + rest'.length ≤ conceptArgs.length := by
      simp only [List.length_cons] at h
      omega
    rw [populateConceptLookupLoop, List.getElem?_eq_getElem hi]
    simp only [StepArg.eta_fields]
    rw [ih (i + 1) _ hnext, List.drop_eq_getElem_cons hi, List.zip_cons_cons, bindPairs_cons]

theorem populateConceptLookupLoop_out_of_range (conceptArgs : List StepArg)
    (rest : List StepArg) :
    ∀ (i : Nat) (lookup : ArgLookup),
      conceptArgs.length < i + rest.length → i ≤ conceptArgs.length →
      populateConceptLookupLoop lookup conceptArgs i rest = .panicked := by
  induction rest with
  | nil =>
    intro i lookup h1 h2
    simp only [List.length_nil, Nat.add_zero] at h1
    omega
  | cons arg rest' ih =>
    intro i lookup h1 h2
    by_cases hi : i < conceptArgs.length
    · rw [populateConceptLookupLoop, List.getElem?_eq_getElem hi]
      exact ih (i + 1) _ (by simp only [List.length_cons] at h1; omega) (by omega)
    · have : conceptArgs[i]? = none := by
        rw [List.getElem?_eq_none_iff]
        omega
      rw [populateConceptLookupLoop, this]

theorem populateConceptLookupLoop_never_err (conceptArgs : List StepArg)
    (rest : List StepArg) :
    ∀ (i : Nat) (lookup : ArgLookup) (e : String),
      populateConceptLookupLoop lookup conceptArgs i rest ≠ .err e := by
  induction rest with
  | nil =>
    intro i lookup e h
    rw [populateConceptLookupLoop] at h
    cases h
  | cons arg rest' ih =>
    intro i lookup e h
    rw [populateConceptLookupLoop] at h
    cases hg : conceptArgs[i]? with
    | none => rw [hg] at h; cases h
    | some ca =>
      rw [hg] at h
      exact ih (i + 1) _ e h

theorem createConceptStep_ok (spec : Specification) (concept step : Step)
    (hlen : step.args.length ≤ concept.args.length) :
    spec.createConceptStep concept step =
      .ok ((((step.copyFrom concept).withArgs step.args).withConceptSteps
              (concept.conceptSteps.map (fun c => c.withParent (some step.id)))).withLookup
            (bindPairs concept.lookup (concept.args.zip step.args))) := by
  cases concept with
  | mk ci cv cl cargs cc ccs clk cp =>
    cases step with
    | mk i v l a c cs lk p =>
      simp only [Step.args] at hlen
      unfold Specification.createConceptStep Specification.populateConceptLookup Step.getCopy
      simp only [Step.copyFrom, Step.withArgs, Step.withConceptSteps, Step.withParent,
        Step.withLookup, Step.id, Step.args, Step.lookup, Step.conceptSteps]
      rw [populateConceptLookupLoop_eq_bindPairs cargs a 0 clk (by simpa using hlen)]
      simp [List.drop_zero]

end Gauge

namespace InfoGatherer

open Gauge

theorem lookupKey_cons {α : Type} (x : String × α) (l : List (String × α)) (k : String) :
    lookupKey (x :: l) k = if x.1 = k then some x.2 else lookupKey l k := by
  by_cases hx : x.1 = k <;> simp [lookupKey, List.find?_cons, hx]

theorem lookupKey_replace_self {α : Type} (t : List (String × α)) (k : String) (v : α)
    (hany : t.any (fun q => q.1 = k)) :
    lookupKey (t.map (fun p => if p.1 = k then (k, v) else p)) k = some v := by
  induction t with
  | nil => simp at hany
  | cons p t ih =>
    rw [List.map_cons, lookupKey_cons]
    by_cases hp : p.1 = k
    · rw [if_pos hp]
      simp
    · rw [if_neg hp, if_neg hp]
      have hany' : t.any (fun q => decide (q.1 = k)) = true := by
        simpa [List.any_cons, hp] using hany
      exact ih hany'

theorem lookupKey_replace_ne {α : Type} (t : List (String × α)) (k other : String) (v : α)
    (h : other ≠ k) :
    lookupKey (t.map (fun p => if p.1 = k then (k, v) else p)) other = lookupKey t other := by
  induction t with
  | nil => rfl
  | cons p t ih =>
    rw [List.map_cons, lookupKey_cons, lookupKey_cons]
    by_cases hp : p.1 = k
    · rw [if_pos hp]
      have h1 : ¬ ((k, v) : String × α).1 = other := fun e => h (by simpa using e.symm)
      have h2 : ¬ p.1 = other := by
        rw [hp]
        exact fun e => h e.symm
      rw [if_neg h1, if_neg h2]
      exact ih
    · rw [if_neg hp]
      by_cases hpo : p.1 = other
      · rw [if_pos hpo, if_pos hpo]
      · rw [if_neg hpo, if_neg hpo]
        exact ih

theorem lookupKey_append_single_self {α : Type} (t : List (String × α)) (k : String) (v : α)
    (hany : ¬ t.any (fun q => q.1 = k)) :
    lookupKey (t ++ [(k, v)]) k = some v := by
  induction t with
  | nil => simp [lookupKey]
  | cons p t ih =>
    have hp : ¬ p.1 = k := by
      intro e
      exact hany (by simp [List.any_cons, e])
    have hany' : ¬ t.any (fun q => decide (q.1 = k)) = true := by
      intro e
      exact hany (by simp [List.any_cons, e])
    rw [List.cons_append, lookupKey_cons, if_neg hp]
    exact ih hany'

theorem lookupKey_append_single_ne {α : Type} (t : List (String × α)) (k other : String)
    (v : α) (h : other ≠ k) :
    lookupKey (t ++ [(k, v)]) other = lookupKey t other := by
  induction t with
  | nil =>
    have h1 : ¬ ((k, v) : String × α).1 = other := fun e => h (by simpa using e.symm)
    simp [lookupKey, List.find?_cons, h1]
  | cons p t ih =>
    rw [List.cons_append, lookupKey_cons, lookupKey_cons]
    by_cases hpo : p.1 = other
    · rw [if_pos hpo, if_pos hpo]
    · rw [if_neg hpo, if_neg hpo]
      exact ih

theorem lookupKey_storeKey_self {α : Type} (m : List (String × α)) (k : String) (v : α) :
    lookupKey (storeKey m k v) k = some v := by
  unfold storeKey
  by_cases hany : m.any (fun q => decide (q.1 = k)) = true
  · simpa [hany] using lookupKey_replace_self m k v hany
  · simpa [hany] using lookupKey_append_single_self m k v (by simpa using hany)

theorem lookupKey_storeKey_ne {α : Type} (m : List (String × α)) (k other : String) (v : α)
    (h : other ≠ k) :
    lookupKey (storeKey m k v) other = lookupKey m other := by
  unfold storeKey
  by_cases hany : m.any (fun q => decide (q.1 = k)) = true
  · simpa [hany] using lookupKey_replace_ne m k other v h
  · simpa [hany] using lookupKey_append_single_ne m k other v h

theorem lookupKey_deleteKey_self {α : Type} (m : List (String × α)) (k : String) :
    lookupKey (deleteKey m k) k = none := by
  induction m with
  | nil => rfl
  | cons p t ih =>
    unfold deleteKey at *
    rw [List.filter_cons]
    by_cases hp : p.1 = k
    · simpa [hp] using ih
    · rw [if_pos (by simp [hp]), lookupKey_cons, if_neg hp]
      exact ih

theorem lookupKey_deleteKey_ne {α : Type} (m : List (String × α)) (k other : String)
    (h : other ≠ k) :
    lookupKey (deleteKey m k) other = lookupKey m other := by
  induction m with
  | nil => rfl
  | cons p t ih =>
    unfold deleteKey at *
    rw [List.filter_cons]
    by_cases hp : p.1 = k
    · have hpo : ¬ p.1 = other := by
        rw [hp]
        exact fun e => h e.symm
      rw [if_neg (by simp [hp]), lookupKey_cons, if_neg hpo]
      exact ih
    · rw [if_pos (by simp [hp]), lookupKey_cons, lookupKey_cons]
      by_cases hpo : p.1 = other
      · rw [if_pos hpo, if_pos hpo]
      · rw [if_neg hpo, if_neg hpo]
        exact ih

theorem foldl_append_singleton_snd {α β : Type} (l : List (α × β)) :
    ∀ init : List β, l.foldl (fun acc p => acc ++ [p.2]) init = init ++ l.map Prod.snd := by
  induction l with
  | nil => intro init; simp
  | cons p t ih => intro init; simp [List.foldl_cons, ih]

theorem foldl_append_values {α β : Type} (l : List (α × List β)) :
    ∀ init : List β, l.foldl (fun acc p => acc ++ p.2) init
      = init ++ (l.map Prod.snd).flatten := by
  induction l with
  | nil => intro init; simp
  | cons p t ih => intro init; simp [List.foldl_cons, ih]

theorem getAvailableSteps_eq (s : SpecInfoGatherer) :
    getAvailableSteps s = s.stepsCache.map Prod.snd := by
  unfold getAvailableSteps
  simpa using foldl_append_singleton_snd s.stepsCache []

theorem getAvailableSpecs_eq (s : SpecInfoGatherer) :
    getAvailableSpecs s = (s.specsCache.map Prod.snd).flatten := by
  unfold getAvailableSpecs
  simpa using foldl_append_values s.specsCache []

theorem stepsCacheInsert_of_present (cache : List (String × StepValue)) :
    ∀ steps : List StepValue,
      (∀ sv ∈ steps, sv.stepValue ∈ cache.map Prod.fst) →
      stepsCacheInsert cache steps = cache := by
  intro steps
  induction steps with
  | nil => intro _; rfl
  | cons sv rest ih =>
    intro h
    have hmem := h sv (List.mem_cons_self sv rest)
    rcases List.mem_map.mp hmem with ⟨p, hp, hpe⟩
    have hany : cache.any (fun q => decide (q.1 = sv.stepValue)) = true :=
      List.any_eq_true.mpr ⟨p, hp, by simp [hpe]⟩
    unfold stepsCacheInsert at *
    rw [List.foldl_cons, if_pos hany]
    exact ih (fun x hx => h x (List.mem_cons_of_mem sv hx))

theorem stepsCacheInsert_wf (steps : List StepValue) :
    ∀ cache : List (String × StepValue),
      StepsCacheWF cache → StepsCacheWF (stepsCacheInsert cache steps) := by
  induction steps with
  | nil => intro cache h; exact h
  | cons sv rest ih =>
    intro cache h
    unfold stepsCacheInsert at *
    rw [List.foldl_cons]
    by_cases hany : cache.any (fun q => decide (q.1 = sv.stepValue)) = true
    · rw [if_pos hany]
      exact ih cache h
    · rw [if_neg hany]
      refine ih _ ⟨?_, ?_⟩
      · have hnotin : sv.stepValue ∉ cache.map Prod.fst := by
          intro hmem
          rcases List.mem_map.mp hmem with ⟨p, hp, hpe⟩
          exact hany (List.any_eq_true.mpr ⟨p, hp, by simp [hpe]⟩)
        have : (cache.map Prod.fst ++ [sv.stepValue]).Nodup := by
          have h2 : (sv.stepValue :: (cache.map Prod.fst ++ [])).Nodup := by
            simp only [List.append_nil]
            exact List.nodup_cons.mpr ⟨hnotin, h.1⟩
          simpa using (@List.nodup_middle _ sv.stepValue (cache.map Prod.fst) []).mpr h2
        simpa using this
      · intro p hp
        rcases List.mem_append.mp hp with hold | hnew
        · exact h.2 p hold
        · rcases List.mem_singleton.mp hnew with rfl
          rfl

theorem stepsCacheReachable_wf (cache : List (String × StepValue))
    (h : StepsCacheReachable cache) : StepsCacheWF cache := by
  induction h with
  | init => exact ⟨List.nodup_nil, by intro p hp; cases hp⟩
  | insert cache steps _ ih => exact stepsCacheInsert_wf steps cache ih

end InfoGatherer

open Gauge InfoGatherer Lang

/-- C6: for every step whose signature has no entry in the concept
dictionary, `processConceptStep` returns no error and leaves the step
completely unchanged (value, arguments, nested steps and lookup are
exactly as before). -/
theorem processConceptStep_without_dictionary_entry_is_identity
    (spec : Specification) (dict : ConceptDictionary) (step : Step)
    (h : dict.search step.value = none) :
    spec.processConceptStep step dict = .ok step := by
  unfold Specification.processConceptStep
  rw [h]

theorem processConceptStep_without_dictionary_entry_is_identity_witness :
    Demo.emptySpec.processConceptStep Demo.atomicStep Demo.emptyDict = .ok Demo.atomicStep :=
  processConceptStep_without_dictionary_entry_is_identity Demo.emptySpec Demo.emptyDict
    Demo.atomicStep rfl

/-- C7: after concept expansion succeeds for an invocation step, every
immediate child step of the copied concept body that is itself a concept
invocation has its Parent back-reference set to the invocation step. -/
theorem createConceptStep_sets_parent_backrefs
    (spec : Specification) (concept step step' : Step)
    (hok : spec.createConceptStep concept step = .ok step') :
    ∀ child ∈ step'.conceptSteps, child.isConcept = true → child.parent = some step.id := by
  intro child hchild _
  unfold Specification.createConceptStep at hok
  simp only [Step.getCopy] at hok
  split at hok
  case h_1 lk heq =>
    cases hok
    simp only [Step.conceptSteps_withLookup, Step.conceptSteps_withConceptSteps,
      Step.conceptSteps_withArgs, Step.conceptSteps_copyFrom, Step.id_withArgs,
      Step.id_copyFrom] at hchild
    rcases List.mem_map.mp hchild with ⟨c0, _, rfl⟩
    exact Step.parent_withParent c0 (some step.id)
  case h_2 => cases hok
  case h_3 => cases hok

theorem createConceptStep_sets_parent_backrefs_witness :
    (Demo.bodyChild.withParent (some 5)).parent = some Demo.invocation.id :=
  createConceptStep_sets_parent_backrefs Demo.emptySpec Demo.conceptRoot Demo.invocation
    Demo.expandedInvocation (by decide) (Demo.bodyChild.withParent (some 5)) (by decide)
    (by decide)

/-- C10: an incremental single-file update whose parse fails mutates no
cache: `onSpecFileModify` with no successfully parsed specification, and
`onConceptFileModify` with a parse result carrying an error, leave the
whole gatherer state (specs, concepts and steps caches) untouched. -/
theorem failed_parse_mutates_no_cache (s : SpecInfoGatherer) (file : String)
    (concepts : List Step) (e : String) :
    onSpecFileModify s file [] = s ∧
    onConceptFileModify s file concepts (some { error := some e }) = s :=
  ⟨rfl, rfl⟩

/-- C3 (counterexample): expansion does not report a structural parse
error on argument-arity mismatch. With one declared parameter and zero
call-site arguments it silently succeeds; with zero declared parameters
and one call-site argument the lookup population indexes past the end of
the declared-parameter list (a runtime panic), and in neither case is an
error returned. -/
theorem arity_mismatch_not_reported_as_error :
    Demo.concept1Root.args.length ≠ Demo.invocation0.args.length ∧
    Demo.emptySpec.createConceptStep Demo.concept1Root Demo.invocation0
      = .ok Demo.expandedSilent ∧
    Demo.concept0Root.args.length ≠ Demo.invocation1.args.length ∧
    Demo.emptySpec.createConceptStep Demo.concept0Root Demo.invocation1 = .panicked := by
  decide

/-- C3 (amended): the lookup population zips positionally but performs
no arity check of its own: when the call-site argument list is no longer
than the declared-parameter list it returns successfully (binding the
positional pairs); when it is longer it panics on an out-of-range index
into the declared-parameter list; it never returns an error. -/
theorem populateConceptLookup_arity_behavior (spec : Specification) (lookup : ArgLookup)
    (conceptArgs stepArgs : List StepArg) :
    (stepArgs.length ≤ conceptArgs.length →
      spec.populateConceptLookup lookup conceptArgs stepArgs
        = .ok (bindPairs lookup (conceptArgs.zip stepArgs))) ∧
    (conceptArgs.length < stepArgs.length →
      spec.populateConceptLookup lookup conceptArgs stepArgs = .panicked) ∧
    (∀ e, spec.populateConceptLookup lookup conceptArgs stepArgs ≠ .err e) := by
  unfold Specification.populateConceptLookup
  refine ⟨fun h => ?_, fun h => ?_, fun e => ?_⟩
  · rw [populateConceptLookupLoop_eq_bindPairs conceptArgs stepArgs 0 lookup (by simpa using h)]
    rw [List.drop_zero]
  · exact populateConceptLookupLoop_out_of_range conceptArgs stepArgs 0 lookup
      (by simpa using h) (Nat.zero_le _)
  · exact populateConceptLookupLoop_never_err conceptArgs stepArgs 0 lookup e

theorem populateConceptLookup_arity_behavior_witness :
    Demo.emptySpec.populateConceptLookup [] [Demo.paramP] []
        = .ok (bindPairs [] ([Demo.paramP].zip [])) ∧
    Demo.emptySpec.populateConceptLookup [] [] [Demo.argX] = .panicked :=
  ⟨(populateConceptLookup_arity_behavior Demo.emptySpec [] [Demo.paramP] []).1 (by decide),
   (populateConceptLookup_arity_behavior Demo.emptySpec [] [] [Demo.argX]).2.1 (by decide)⟩

/-- C2 (counterexample): re-parsing an unchanged spec file through the
incremental-modify path is *not* idempotent for `listSpecifications()`:
the file's cache entry is appended to, not replaced, so the query gains
a duplicate copy of the file's specification. -/
theorem onSpecFileModify_reparse_not_idempotent :
    getAvailableSpecs (onSpecFileModify Demo.gatherer0 "a.spec" [Demo.specA])
      ≠ getAvailableSpecs Demo.gatherer0 := by
  decide

/-- C8 (counterexample): `removeItem` does not preserve the
`Scenarios`-versus-`Items` consistency invariant when the specification
holds two deep-equal scenarios: removing the later duplicate item
removes the *first* matching entry from `Scenarios`, reordering it
relative to `Items`. -/
theorem removeItem_duplicate_scenario_breaks_consistency :
    Demo.dupSpec.scenariosConsistent ∧
    Demo.dupSpec.removeItem 2 = .ok Demo.dupSpecAfter ∧
    ¬ Demo.dupSpecAfter.scenariosConsistent := by
  decide

/-- C1: for every invocation step whose signature matches a concept in
the dictionary (hence with call-site arity equal to the concept's
declared arity, and pairwise-distinct declared parameter names), concept
expansion returns successfully, leaves the step's argument list equal to
the original call-site arguments, and populates the Argument Lookup so
that the concept's i-th declared parameter name resolves to the i-th
call-site argument. -/
theorem processConceptStep_preserves_callsite_args_and_populates_lookup
    (spec : Specification) (dict : ConceptDictionary) (step : Step) (concept : Concept)
    (hsearch : dict.search step.value = some concept)
    (hlen : concept.conceptStep.args.length = step.args.length)
    (hnodup : (concept.conceptStep.args.map StepArg.value).Nodup) :
    ∃ step', spec.processConceptStep step dict = .ok step' ∧
      step'.args = step.args ∧
      ∀ (i : Nat) (ca sa : StepArg),
        concept.conceptStep.args[i]? = some ca → step.args[i]? = some sa →
        step'.lookup.resolve ca.value = some sa := by
  refine ⟨(((step.copyFrom concept.conceptStep).withArgs step.args).withConceptSteps
      (concept.conceptStep.conceptSteps.map (fun c => c.withParent (some step.id)))).withLookup
      (bindPairs concept.conceptStep.lookup (concept.conceptStep.args.zip step.args)),
      ?_, ?_, ?_⟩
  · unfold Specification.processConceptStep
    rw [hsearch]
    exact createConceptStep_ok spec concept.conceptStep step (le_of_eq hlen.symm)
  · simp
  · intro i ca sa h1 h2
    have hpair : (ca, sa) ∈ concept.conceptStep.args.zip step.args :=
      List.getElem?_mem (List.getElem?_zip_eq_some.mpr ⟨h1, h2⟩)
    have hfst : (concept.conceptStep.args.zip step.args).map Prod.fst
        = concept.conceptStep.args :=
      List.map_fst_zip _ _ (le_of_eq hlen)
    have hnodupz :
        ((concept.conceptStep.args.zip step.args).map (fun q => q.1.value)).Nodup := by
      have : (concept.conceptStep.args.zip step.args).map (fun q => q.1.value)
          = ((concept.conceptStep.args.zip step.args).map Prod.fst).map StepArg.value := by
        rw [List.map_map]
        rfl
      rw [this, hfst]
      exact hnodup
    simpa using bindPairs_resolve_mem _ _ ca sa hpair hnodupz

theorem processConceptStep_preserves_callsite_args_and_populates_lookup_witness :
    ∃ step',
      Demo.emptySpec.processConceptStep Demo.invocation Demo.demoDict = .ok step' ∧
      step'.args = Demo.invocation.args ∧
      ∀ (i : Nat) (ca sa : StepArg),
        (⟨Demo.conceptRoot, "c.cpt"⟩ : Concept).conceptStep.args[i]? = some ca →
        Demo.invocation.args[i]? = some sa →
        step'.lookup.resolve ca.value = some sa :=
  processConceptStep_preserves_callsite_args_and_populates_lookup
    Demo.emptySpec Demo.demoDict Demo.invocation ⟨Demo.conceptRoot, "c.cpt"⟩
    (by decide) (by decide) (by decide)

/-- C2 (amended): the incremental single-file update *appends* the
re-parsed specification to the file's cache entry (leaving entries for
other files alone); when the re-parsed file's derived step signatures
are already catalogued, the steps cache — and hence `listSteps()` — is
left exactly as it was. -/
theorem onSpecFileModify_appends_and_preserves_steps
    (s : SpecInfoGatherer) (file : String) (spec : Specification)
    (hsteps : ∀ sv ∈ getStepsFromSpec spec, sv.stepValue ∈ s.stepsCache.map Prod.fst) :
    lookupKey (onSpecFileModify s file [spec]).specsCache file
      = some ((lookupKey s.specsCache file).getD [] ++ [spec]) ∧
    (∀ k, k ≠ file → lookupKey (onSpecFileModify s file [spec]).specsCache k
      = lookupKey s.specsCache k) ∧
    (onSpecFileModify s file [spec]).stepsCache = s.stepsCache ∧
    getAvailableSteps (onSpecFileModify s file [spec]) = getAvailableSteps s := by
  have hmod : onSpecFileModify s file [spec]
      = addToStepsCache (addToSpecsCache s file spec) (getStepsFromSpec spec) := rfl
  have hspecsCache : (onSpecFileModify s file [spec]).specsCache
      = storeKey s.specsCache file ((lookupKey s.specsCache file).getD [] ++ [spec]) := by
    rw [hmod]
    rfl
  have hstepsCache : (onSpecFileModify s file [spec]).stepsCache = s.stepsCache := by
    rw [hmod]
    show stepsCacheInsert s.stepsCache (getStepsFromSpec spec) = s.stepsCache
    exact stepsCacheInsert_of_present s.stepsCache (getStepsFromSpec spec) hsteps
  refine ⟨?_, ?_, hstepsCache, ?_⟩
  · rw [hspecsCache]
    exact lookupKey_storeKey_self s.specsCache file _
  · intro k hk
    rw [hspecsCache]
    exact lookupKey_storeKey_ne s.specsCache file k _ hk
  · rw [getAvailableSteps_eq, getAvailableSteps_eq, hstepsCache]

theorem onSpecFileModify_appends_and_preserves_steps_witness :
    lookupKey (onSpecFileModify Demo.gatherer0 "a.spec" [Demo.specA]).specsCache "a.spec"
      = some ((lookupKey Demo.gatherer0.specsCache "a.spec").getD [] ++ [Demo.specA]) ∧
    lookupKey (onSpecFileModify Demo.gatherer0 "a.spec" [Demo.specA]).specsCache "b.spec"
      = lookupKey Demo.gatherer0.specsCache "b.spec" ∧
    (onSpecFileModify Demo.gatherer0 "a.spec" [Demo.specA]).stepsCache
      = Demo.gatherer0.stepsCache ∧
    getAvailableSteps (onSpecFileModify Demo.gatherer0 "a.spec" [Demo.specA])
      = getAvailableSteps Demo.gatherer0 := by
  have h := onSpecFileModify_appends_and_preserves_steps Demo.gatherer0 "a.spec" Demo.specA
    (by decide)
  exact ⟨h.1, h.2.1 "b.spec" (by decide), h.2.2.1, h.2.2.2⟩

/-- C4: in every steps-cache state reachable through `addToStepsCache`,
`GetAvailableSteps` returns no two entries with the same signature, and
inserting a step value whose signature is already present leaves the
cache — and so the existing entry — in place (first-writer-wins). -/
theorem stepsCache_reachable_nodup_first_writer_wins
    (s : SpecInfoGatherer) (h : StepsCacheReachable s.stepsCache) :
    ((getAvailableSteps s).map StepValue.stepValue).Nodup ∧
    (∀ sv : StepValue, sv.stepValue ∈ s.stepsCache.map Prod.fst →
      addToStepsCache s [sv] = s) := by
  have hwf := stepsCacheReachable_wf s.stepsCache h
  constructor
  · rw [getAvailableSteps_eq, List.map_map]
    have : s.stepsCache.map (StepValue.stepValue ∘ Prod.snd) = s.stepsCache.map Prod.fst :=
      List.map_congr_left (fun p hp => hwf.2 p hp)
    rw [this]
    exact hwf.1
  · intro sv hmem
    have : stepsCacheInsert s.stepsCache [sv] = s.stepsCache :=
      stepsCacheInsert_of_present s.stepsCache [sv]
        (fun x hx => by rcases List.mem_singleton.mp hx with rfl; exact hmem)
    unfold addToStepsCache
    rw [this]

theorem stepsCache_reachable_nodup_first_writer_wins_witness :
    ((getAvailableSteps Demo.gatherer0).map StepValue.stepValue).Nodup ∧
    addToStepsCache Demo.gatherer0 [createStepValue Demo.atomicStep] = Demo.gatherer0 := by
  have h := stepsCache_reachable_nodup_first_writer_wins Demo.gatherer0
    (StepsCacheReachable.insert [] (getStepsFromSpec Demo.specA) StepsCacheReachable.init)
  exact ⟨h.1, h.2 (createStepValue Demo.atomicStep) (by decide)⟩

/-- C5: a remove event for a spec file deletes exactly that file's
entry from the specs cache — afterwards `listSpecifications()` contains
no specification from that file while every other file's entry is
unchanged — and leaves the concepts cache and the steps catalogue (and
hence `listSteps()`) untouched. -/
theorem onSpecFileRemove_removes_only_that_file
    (s : SpecInfoGatherer) (file : String)
    (hfiles : ∀ p ∈ s.specsCache, ∀ spec ∈ p.2, spec.fileName = p.1) :
    lookupKey (onSpecFileRemove s file).specsCache file = none ∧
    (∀ k, k ≠ file → lookupKey (onSpecFileRemove s file).specsCache k
      = lookupKey s.specsCache k) ∧
    (∀ spec ∈ getAvailableSpecs (onSpecFileRemove s file), spec.fileName ≠ file) ∧
    (onSpecFileRemove s file).stepsCache = s.stepsCache ∧
    (onSpecFileRemove s file).conceptsCache = s.conceptsCache ∧
    getAvailableSteps (onSpecFileRemove s file) = getAvailableSteps s := by
  refine ⟨lookupKey_deleteKey_self s.specsCache file,
    fun k hk => lookupKey_deleteKey_ne s.specsCache file k hk, ?_, rfl, rfl, ?_⟩
  · intro spec hspec
    rw [getAvailableSpecs_eq] at hspec
    rcases List.mem_flatten.mp hspec with ⟨l, hl, hspecl⟩
    rcases List.mem_map.mp hl with ⟨p, hp, rfl⟩
    have hpmem : p ∈ s.specsCache ∧ (fun q => decide (¬ q.1 = file)) p = true :=
      List.mem_filter.mp hp
    have hne : p.1 ≠ file := by simpa using hpmem.2
    have := hfiles p hpmem.1 spec hspecl
    rw [this]
    exact hne
  · rw [getAvailableSteps_eq, getAvailableSteps_eq]
    rfl

theorem onSpecFileRemove_removes_only_that_file_witness :
    lookupKey (onSpecFileRemove Demo.gatherer0 "a.spec").specsCache "a.spec" = none ∧
    lookupKey (onSpecFileRemove Demo.gatherer0 "a.spec").specsCache "b.spec"
      = lookupKey Demo.gatherer0.specsCache "b.spec" ∧
    (∀ spec ∈ getAvailableSpecs (onSpecFileRemove Demo.gatherer0 "a.spec"),
      spec.fileName ≠ "a.spec") ∧
    (onSpecFileRemove Demo.gatherer0 "a.spec").stepsCache = Demo.gatherer0.stepsCache ∧
    getAvailableSteps (onSpecFileRemove Demo.gatherer0 "a.spec")
      = getAvailableSteps Demo.gatherer0 := by
  have h := onSpecFileRemove_removes_only_that_file Demo.gatherer0 "a.spec" (by decide)
  exact ⟨h.1, h.2.1 "b.spec" (by decide), h.2.2.1, h.2.2.2.1, h.2.2.2.2.2⟩

namespace Gauge

theorem scenarioItems_append (l1 l2 : List Item) :
    scenarioItems (l1 ++ l2) = scenarioItems l1 ++ scenarioItems l2 :=
  List.filterMap_append l1 l2 _

@[simp] theorem scenarioItems_scenario_cons (sc : Scenario) (l : List Item) :
    scenarioItems (Item.scenarioItem sc :: l) = sc :: scenarioItems l := rfl

theorem scenarioItems_cons_of_ne (item : Item) (l : List Item)
    (h : ∀ sc : Scenario, item ≠ .scenarioItem sc) :
    scenarioItems (item :: l) = scenarioItems l := by
  cases item with
  | scenarioItem sc => exact absurd rfl (h sc)
  | stepItem s => rfl
  | commentItem c => rfl
  | tagsItem t => rfl
  | tearDownItem t => rfl
  | dataTableItem d => rfl

theorem addScenario_consistent (spec : Specification) (sc : Scenario)
    (h : spec.scenariosConsistent) : (spec.addScenario sc).scenariosConsistent := by
  unfold Specification.scenariosConsistent at *
  show spec.scenarios ++ [sc] = scenarioItems (spec.items ++ [Item.scenarioItem sc])
  rw [scenarioItems_append, h]
  rfl

theorem getIndexForFrom_append (sc : Scenario) (B : List Scenario) (A : List Scenario)
    (hA : sc ∉ A) :
    ∀ n : Nat, getIndexForFrom sc (A ++ sc :: B) n = (n + A.length : Int) := by
  induction A with
  | nil =>
    intro n
    rw [List.nil_append, getIndexForFrom, if_pos rfl]
    simp
  | cons a A ih =>
    intro n
    have hne : sc ≠ a := fun e => hA (e ▸ List.mem_cons_self a A)
    rw [List.cons_append, getIndexForFrom, if_neg hne,
      ih (fun hm => hA (List.mem_cons_of_mem a hm)) (n + 1)]
    simp only [List.length_cons]
    push_cast
    ring_nf

theorem removeScenario_first (spec : Specification) (sc : Scenario) (A B : List Scenario)
    (hspec : spec.scenarios = A ++ sc :: B) (hA : sc ∉ A) :
    spec.removeScenario sc = .ok { spec with scenarios := A ++ B } := by
  have hidx : getIndexFor sc spec.scenarios = (A.length : Int) := by
    rw [hspec]
    simpa using getIndexForFrom_append sc B A hA 0
  have hlenS : spec.scenarios.length = A.length + B.length + 1 := by
    rw [hspec]
    simp
    omega
  have hsplit : spec.scenarios = (A ++ [sc]) ++ B := by
    rw [hspec]
    simp
  unfold Specification.removeScenario
  simp only [hidx]
  by_cases hB : B = []
  · subst hB
    have hcond : (spec.scenarios.length : Int) - 1 = (A.length : Int) := by
      rw [hlenS]
      simp
    rw [if_pos hcond, if_neg (not_lt.mpr (Int.natCast_nonneg A.length))]
    have hsc : spec.scenarios.take ((A.length : Int)).toNat = A ++ ([] : List Scenario) := by
      rw [hspec, List.append_nil, Int.toNat_natCast]
      exact List.take_left A [sc]
    rw [hsc]
  · have hBpos : 0 < B.length := List.length_pos.mpr hB
    have hcond1 : ¬ ((spec.scenarios.length : Int) - 1 = (A.length : Int)) := by
      rw [hlenS]
      push_cast
      omega
    rw [if_neg hcond1]
    by_cases hA0 : A = []
    · subst hA0
      rw [if_pos (by simp)]
      have hsc : spec.scenarios.drop 1 = ([] : List Scenario) ++ B := by
        rw [hspec]
        simp
      rw [hsc]
    · have hApos : 0 < A.length := List.length_pos.mpr hA0
      have hcond2 : ¬ ((A.length : Int) = 0) := by
        omega
      rw [if_neg hcond2, if_neg (not_lt.mpr (Int.natCast_nonneg A.length))]
      have htake : spec.scenarios.take ((A.length : Int)).toNat = A := by
        rw [hspec, Int.toNat_natCast]
        exact List.take_left A (sc :: B)
      have hdrop : spec.scenarios.drop (((A.length : Int)).toNat + 1) = B := by
        rw [hsplit, Int.toNat_natCast]
        have h1 : A.length + 1 = (A ++ [sc]).length := by simp
        rw [h1]
        exact List.drop_left (A ++ [sc]) B
      rw [htake, hdrop]

theorem scenarioItems_removeAt_of_not_scenario (items : List Item) (i : Nat)
    (hi : i < items.length)
    (h : ∀ sc : Scenario, items[i] ≠ .scenarioItem sc) :
    scenarioItems (items.take i ++ items.drop (i + 1)) = scenarioItems items := by
  conv_rhs => rw [← List.take_append_drop i items, List.drop_eq_getElem_cons hi]
  rw [scenarioItems_append, scenarioItems_append, scenarioItems_cons_of_ne _ _ h]

theorem scenarioItems_removeAt_scenario (items : List Item) (i : Nat) (sc : Scenario)
    (hi : i < items.length) (h : items[i] = .scenarioItem sc) :
    scenarioItems items
      = scenarioItems (items.take i) ++ sc :: scenarioItems (items.drop (i + 1)) := by
  conv_lhs => rw [← List.take_append_drop i items, List.drop_eq_getElem_cons hi]
  rw [h, scenarioItems_append, scenarioItems_scenario_cons]

theorem removeItem_newItems (spec : Specification) (i : Nat) (hi : i < spec.items.length) :
    (if spec.items.length - 1 = i then spec.items.take i
     else if i = 0 then spec.items.drop 1
     else spec.items.take i ++ spec.items.drop (i + 1))
      = spec.items.take i ++ spec.items.drop (i + 1) := by
  by_cases h1 : spec.items.length - 1 = i
  · rw [if_pos h1]
    have hd : spec.items.drop (i + 1) = [] := List.drop_eq_nil_of_le (by omega)
    rw [hd, List.append_nil]
  · rw [if_neg h1]
    by_cases h2 : i = 0
    · subst h2
      rw [if_pos rfl, List.take_zero, List.nil_append]
    · rw [if_neg h2]

theorem removeItem_preserves_consistency (spec : Specification) (i : Nat)
    (hcons : spec.scenariosConsistent) (hnodup : spec.scenarios.Nodup)
    (hi : i < spec.items.length) :
    ∃ spec', spec.removeItem i = .ok spec' ∧ spec'.scenariosConsistent ∧
      spec'.items = spec.items.take i ++ spec.items.drop (i + 1) := by
  have hget : spec.items[i]? = some spec.items[i] := List.getElem?_eq_getElem hi
  unfold Specification.removeItem
  rw [hget]
  simp only [removeItem_newItems spec i hi]
  cases hitem : spec.items[i] with
  | scenarioItem sc =>
    have hscen : spec.scenarios
        = scenarioItems (spec.items.take i) ++ sc :: scenarioItems (spec.items.drop (i + 1)) := by
      rw [hcons]
      exact scenarioItems_removeAt_scenario spec.items i sc hi hitem
    have hA : sc ∉ scenarioItems (spec.items.take i) := by
      have h0 : (scenarioItems (spec.items.take i)
          ++ sc :: scenarioItems (spec.items.drop (i + 1))).Nodup := hscen ▸ hnodup
      have h1 := List.nodup_middle.mp h0
      have h2 := (List.nodup_cons.mp h1).1
      exact fun hm => h2 (List.mem_append_left _ hm)
    have hrs := removeScenario_first
      { spec with items := spec.items.take i ++ spec.items.drop (i + 1) } sc
      (scenarioItems (spec.items.take i)) (scenarioItems (spec.items.drop (i + 1)))
      hscen hA
    refine ⟨_, hrs, ?_, rfl⟩
    show Specification.scenariosConsistent _
    unfold Specification.scenariosConsistent
    show scenarioItems (spec.items.take i) ++ scenarioItems (spec.items.drop (i + 1))
      = scenarioItems (spec.items.take i ++ spec.items.drop (i + 1))
    rw [scenarioItems_append]
  | stepItem s =>
    refine ⟨_, rfl, ?_, rfl⟩
    unfold Specification.scenariosConsistent
    show spec.scenarios = scenarioItems (spec.items.take i ++ spec.items.drop (i + 1))
    rw [scenarioItems_removeAt_of_not_scenario spec.items i hi (by rw [hitem]; intro sc h; cases h)]
    exact hcons
  | commentItem c =>
    refine ⟨_, rfl, ?_, rfl⟩
    unfold Specification.scenariosConsistent
    show spec.scenarios = scenarioItems (spec.items.take i ++ spec.items.drop (i + 1))
    rw [scenarioItems_removeAt_of_not_scenario spec.items i hi (by rw [hitem]; intro sc h; cases h)]
    exact hcons
  | tagsItem t =>
    refine ⟨_, rfl, ?_, rfl⟩
    unfold Specification.scenariosConsistent
    show spec.scenarios = scenarioItems (spec.items.take i ++ spec.items.drop (i + 1))
    rw [scenarioItems_removeAt_of_not_scenario spec.items i hi (by rw [hitem]; intro sc h; cases h)]
    exact hcons
  | tearDownItem t =>
    refine ⟨_, rfl, ?_, rfl⟩
    unfold Specification.scenariosConsistent
    show spec.scenarios = scenarioItems (spec.items.take i ++ spec.items.drop (i + 1))
    rw [scenarioItems_removeAt_of_not_scenario spec.items i hi (by rw [hitem]; intro sc h; cases h)]
    exact hcons
  | dataTableItem d =>
    refine ⟨_, rfl, ?_, rfl⟩
    unfold Specification.scenariosConsistent
    show spec.scenarios = scenarioItems (spec.items.take i ++ spec.items.drop (i + 1))
    rw [scenarioItems_removeAt_of_not_scenario spec.items i hi (by rw [hitem]; intro sc h; cases h)]
    exact hcons

end Gauge

namespace Lang

open Gauge

theorem getScenarioAtLoop_eq (file : String) (line : Nat) (scenarios : List Scenario) :
    ∀ ifs : List ScenarioInfo,
      getScenarioAtLoop file line scenarios ifs =
        (match scenarios.find? (fun sce => sce.inSpan (line + 1)) with
         | some sce => Sum.inl (getScenarioInfo sce file)
         | none => Sum.inr (ifs ++ scenarios.map (fun sce => getScenarioInfo sce file))) := by
  induction scenarios with
  | nil =>
    intro ifs
    simp [getScenarioAtLoop]
  | cons sce rest ih =>
    intro ifs
    rw [getScenarioAtLoop]
    by_cases hs : sce.inSpan (line + 1)
    · simp [List.find?_cons, hs]
    · simp only [hs, if_false, Bool.false_eq_true]
      rw [ih (ifs ++ [getScenarioInfo sce file])]
      rw [List.find?_cons]
      simp only [hs]
      cases rest.find? (fun sce => sce.inSpan (line + 1)) with
      | some found => rfl
      | none => simp

end Lang

/-- C9: for every scenario list and line number, `getScenarioAt`
returns the (first) scenario whose source span contains the queried
document line when one exists, and otherwise returns the full list of
scenario summaries. -/
theorem getScenarioAt_returns_containing_scenario_or_summaries
    (scenarios : List Scenario) (file : String) (line : Nat) :
    (∀ sce, scenarios.find? (fun sc => sc.inSpan (line + 1)) = some sce →
      getScenarioAt scenarios file line = .inl (getScenarioInfo sce file)) ∧
    ((∀ sce ∈ scenarios, ¬ sce.inSpan (line + 1)) →
      getScenarioAt scenarios file line
        = .inr (scenarios.map (fun sce => getScenarioInfo sce file))) := by
  constructor
  · intro sce hfind
    unfold getScenarioAt
    rw [getScenarioAtLoop_eq file line scenarios [], hfind]
  · intro hnone
    have hfind : scenarios.find? (fun sc => sc.inSpan (line + 1)) = none :=
      List.find?_eq_none.mpr (fun sce hm => by simpa using hnone sce hm)
    unfold getScenarioAt
    rw [getScenarioAtLoop_eq file line scenarios [], hfind]
    rfl

theorem getScenarioAt_returns_containing_scenario_or_summaries_witness :
    getScenarioAt [Demo.scenA, Demo.scenB] "a.spec" 2
      = .inl (getScenarioInfo Demo.scenA "a.spec") ∧
    getScenarioAt [Demo.scenA, Demo.scenB] "a.spec" 50
      = .inr ([Demo.scenA, Demo.scenB].map (fun sce => getScenarioInfo sce "a.spec")) :=
  ⟨(getScenarioAt_returns_containing_scenario_or_summaries [Demo.scenA, Demo.scenB]
      "a.spec" 2).1 Demo.scenA (by decide),
   (getScenarioAt_returns_containing_scenario_or_summaries [Demo.scenA, Demo.scenB]
      "a.spec" 50).2 (by decide)⟩

/-- C8 (amended): `AddScenario` always preserves the consistency of
`Scenarios` with the scenario-kind subsequence of `Items`; `removeItem`
removes exactly the indexed item (Items keeping source order) and
preserves the consistency provided the specification's scenarios are
pairwise distinct under deep equality. -/
theorem addScenario_removeItem_preserve_consistency :
    (∀ (spec : Specification) (sc : Scenario),
      spec.scenariosConsistent → (spec.addScenario sc).scenariosConsistent) ∧
    (∀ (spec : Specification) (i : Nat),
      spec.scenariosConsistent → spec.scenarios.Nodup → i < spec.items.length →
      ∃ spec', spec.removeItem i = .ok spec' ∧ spec'.scenariosConsistent ∧
        spec'.items = spec.items.take i ++ spec.items.drop (i + 1)) :=
  ⟨Gauge.addScenario_consistent, Gauge.removeItem_preserves_consistency⟩

theorem addScenario_removeItem_preserve_consistency_witness :
    (Demo.emptySpec.addScenario Demo.scenA).scenariosConsistent ∧
    (∃ spec', Demo.specA.removeItem 1 = .ok spec' ∧ spec'.scenariosConsistent ∧
      spec'.items = Demo.specA.items.take 1 ++ Demo.specA.items.drop 2) :=
  ⟨addScenario_removeItem_preserve_consistency.1 Demo.emptySpec Demo.scenA (by decide),
   addScenario_removeItem_preserve_consistency.2 Demo.specA 1 (by decide) (by decide)
     (by decide)⟩
